import Mathlib

set_option autoImplicit false

namespace RustlerSpec

/-- Model of the foreign runtime's term representation, restricted to the
constructors this layer touches: atoms, integers, strings, binaries and
key-value maps (association lists). -/
inductive Term where
  | atom : String → Term
  | int : Int → Term
  | str : String → Term
  | binary : List Nat → Term
  | map : List (Term × Term) → Term

/-- Structural (Erlang `=:=`-style) equality on modelled terms. -/
def Term.beq : Term → Term → Bool
  | .atom a, .atom b => a == b
  | .int a, .int b => a == b
  | .str a, .str b => a == b
  | .binary a, .binary b => a == b
  | .map a, .map b => beqEntries a b
  | _, _ => false
where beqEntries : List (Term × Term) → List (Term × Term) → Bool
  | [], [] => true
  | (k, v) :: rest, (k', v') :: rest' =>
      Term.beq k k' && Term.beq v v' && beqEntries rest rest'
  | _, _ => false

instance : BEq Term := ⟨Term.beq⟩

/-- Model of rustler's `Error` enum, restricted to the variants the code under
study produces: `BadArg` and `RaiseTerm` (the boxed payload is modelled by the
string it carries, which is all the generated decoder ever boxes). -/
inductive Error where
  | badArg
  | raiseTerm : String → Error
  deriving DecidableEq

/-- Modelled from the spec: `Term::map_get` (rustler `term/map`, not under
`src/`) looks up `key` in the map term and returns the bound value, failing
with `BadArg` when the key is absent or the term is not a map. -/
def Term.map_get (t key : Term) : Except Error Term :=
  match t with
  | .map entries =>
      match entries.find? (fun p => p.1 == key) with
      | some p => .ok p.2
      | none => .error .badArg
  | _ => .error .badArg

/-- Association-list insert backing `map_put`: replaces the binding of an
existing key in place, otherwise appends the new binding. -/
def putEntry : List (Term × Term) → Term → Term → List (Term × Term)
  | [], k, v => [(k, v)]
  | (k', v') :: rest, k, v =>
      if k' == k then (k, v) :: rest else (k', v') :: putEntry rest k v

/-- Modelled from the spec: `Term::map_put` (rustler `term/map`, not under
`src/`) inserts a key/value binding into a map term, failing with `BadArg`
when the term is not a map. -/
def Term.map_put (t key value : Term) : Except Error Term :=
  match t with
  | .map entries => .ok (.map (putEntry entries key value))
  | _ => .error .badArg

/-- Modelled from the spec: `map_new` creates an empty map term. -/
def map_new : Term := .map []

/-- One named field of a record type, as seen by the codec generator in
`map.rs`: its identifier (whose interned atom is `Term.atom name`) and the
field type's own `Decoder::decode` implementation. The Rust-side field value
type is abstracted as `V`. -/
structure FieldSpec (V : Type) where
  name : String
  dec : Term → Except Error V

/-- The per-field error message built by `gen_decoder` in `map.rs`:
`format!("Could not decode field :{} on %{{}}", ident)`. -/
def fieldErrorMessage (fieldName : String) : String :=
  "Could not decode field :" ++ fieldName ++ " on %\x7b\x7d"

/-- One field initializer of the generated `decode`: evaluates
`match Decoder::decode(term.map_get(atom_fun().encode(env))?) \x7b Err(_) =>
return Err(Error::RaiseTerm(msg)), Ok(value) => value \x7d`. The `?` on
`map_get` propagates the lookup error unchanged; only a failure of the
field's own decoder is replaced by the descriptive `RaiseTerm`. -/
def decodeField {V : Type} (f : FieldSpec V) (term : Term) : Except Error V :=
  match term.map_get (Term.atom f.name) with
  | .error e => .error e
  | .ok v =>
    match f.dec v with
    | .error _ => .error (.raiseTerm (fieldErrorMessage f.name))
    | .ok value => .ok value

/-- Model of the decoder emitted by `gen_decoder` in `map.rs`: the struct
literal evaluates its field initializers in declaration order, each one able
to return early with an error; the record decodes only if every field does. -/
def gen_decoder {V : Type} : List (FieldSpec V) → Term → Except Error (List V)
  | [], _ => .ok []
  | f :: rest, term =>
    match decodeField f term with
    | .error e => .error e
    | .ok v =>
      match gen_decoder rest term with
      | .error e => .error e
      | .ok vs => .ok (v :: vs)

/-- One named field of a record value, as seen by the generated encoder: its
identifier and the already-encoded term `self.#field_ident.encode(env)`. -/
structure EncField where
  name : String
  value : Term

/-- The chain of `map = map.map_put(atom, value).unwrap();` statements emitted
by `gen_encoder` in `map.rs`, threaded left to right. An `Except.error` result
models the `.unwrap()` panic (which we prove unreachable). -/
def encodeFields : List EncField → Term → Except Error Term
  | [], m => .ok m
  | f :: rest, m =>
    match m.map_put (Term.atom f.name) f.value with
    | .error e => .error e
    | .ok m' => encodeFields rest m'

/-- Model of the encoder emitted by `gen_encoder` in `map.rs`: starts from
`map_new(env)` and inserts each field's atom key and encoded value in
declaration order. -/
def gen_encoder (fields : List EncField) : Except Error Term :=
  encodeFields fields map_new

/-- Largest value of the machine word type `usize` (64-bit target). -/
def USIZE_MAX : Nat := 2 ^ 64 - 1

/-- Model of `usize::checked_add`: `none` exactly when the machine addition
would overflow. -/
def usizeCheckedAdd (a b : Nat) : Option Nat :=
  if a + b ≤ USIZE_MAX then some (a + b) else none

/-- Model of `OwnedBinary`: the wrapped `ErlNifBinary` descriptor, observed as
its byte contents (the descriptor's size is `data.length`). Allocation identity
and destructor behaviour are modelled separately by the ownership machine. -/
structure OwnedBinary where
  data : List Nat
  deriving DecidableEq

/-- The uninitialized contents a foreign allocation of `size` bytes happens to
carry, drawn from an arbitrary byte supply `u`. -/
def uninitBytes (u : Nat → Nat) (size : Nat) : List Nat :=
  (List.range size).map u

/-- Modelled from the spec: the raw allocator shim's `alloc`
(`wrapper::binary::alloc`, not under `src/`): the foreign allocator either
fails (`ok = false`, yielding `none`) or returns a fresh buffer of `size`
uninitialized bytes. -/
def allocBinary (size : Nat) (ok : Bool) (u : Nat → Nat) : Option OwnedBinary :=
  if ok then some ⟨uninitBytes u size⟩ else none

/-- `OwnedBinary::new(size)`: `unsafe \x7b alloc(size) \x7d.map(OwnedBinary)`. -/
def OwnedBinary.new (size : Nat) (ok : Bool) (u : Nat → Nat) : Option OwnedBinary :=
  allocBinary size ok u

/-- Model of `<[u8]>::copy_from_slice(src)`: replaces dst's contents by src.
Its length-mismatch panic is modelled by leaving dst unchanged; every call site
in the code under study passes equal lengths, so that branch is dead there. -/
def copy_from_slice (dst src : List Nat) : List Nat :=
  if src.length = dst.length then src else dst

/-- `bin.as_mut_slice().copy_from_slice(src)` on an `OwnedBinary`. -/
def OwnedBinary.write_all (b : OwnedBinary) (src : List Nat) : OwnedBinary :=
  ⟨copy_from_slice b.data src⟩

/-- Model of `Binary`: the `ErlNifBinary` descriptor (observed as bytes) plus
the term handle it aliases. Copies are free; immutability is inherent. -/
structure Binary where
  data : List Nat
  term : Term

/-- `OwnedBinary::from_unowned(src)`: allocates a buffer of `src.len()` bytes
and copies `src`'s bytes into it; `none` exactly when allocation fails. -/
def OwnedBinary.from_unowned (src : Binary) (ok : Bool) (u : Nat → Nat) :
    Option OwnedBinary :=
  (OwnedBinary.new src.data.length ok u).map (fun b => b.write_all src.data)

/-- `Binary::from_owned(owned, env)`: wraps `owned` in `ManuallyDrop` (so its
destructor never runs), asks the runtime for a binary term over the same
descriptor via `enif_make_binary`, and returns the descriptor paired with that
term. The term's bytes are the descriptor's bytes. -/
def Binary.from_owned (owned : OwnedBinary) : Binary :=
  ⟨owned.data, Term.binary owned.data⟩

/-- `Binary::to_owned()`: delegates to `OwnedBinary::from_unowned(self)`. -/
def Binary.to_owned (b : Binary) (ok : Bool) (u : Nat → Nat) : Option OwnedBinary :=
  OwnedBinary.from_unowned b ok u

/-- `Binary::from_term(term)`: `enif_inspect_binary` succeeds exactly when the
term is a binary, filling the descriptor with that binary's bytes; otherwise
the function returns `Err(Error::BadArg)`. -/
def Binary.from_term (t : Term) : Except Error Binary :=
  match t with
  | .binary bs => .ok ⟨bs, t⟩
  | _ => .error .badArg

/-- Modelled from the spec: the raw allocator shim's `realloc`
(`wrapper::binary::realloc`, not under `src/`, wrapping
`enif_realloc_binary`): on success the buffer is resized in place with the
overlapping prefix of bytes preserved and any grown tail uninitialized; on
failure it reports `false` and the buffer is left completely intact. The
foreign outcome is the `ok` parameter. -/
def rawRealloc (data : List Nat) (size : Nat) (ok : Bool) (u : Nat → Nat) :
    Bool × List Nat :=
  if ok then (true, data.take size ++ uninitBytes u (size - data.length))
  else (false, data)

/-- `OwnedBinary::realloc(size)`: returns the shim's success flag; the
descriptor is updated only on success. -/
def OwnedBinary.realloc (b : OwnedBinary) (size : Nat) (ok : Bool) (u : Nat → Nat) :
    Bool × OwnedBinary :=
  let r := rawRealloc b.data size ok u
  (r.1, ⟨r.2⟩)

/-- Model of std's `io::Write` impl for `&mut [u8]`: writes
`min(src.length, dst.length)` bytes at the front of `dst` and returns `Ok`
with that count; this impl never returns `Err`. -/
def slice_write (dst src : List Nat) : Except Unit (List Nat × Nat) :=
  let n := min src.length dst.length
  .ok (src.take n ++ dst.drop n, n)

/-- `OwnedBinary::realloc_or_copy(size)`: tries `realloc`; on failure allocates
a fresh buffer (`.unwrap()` panic on allocation failure modelled as `none`),
writes the old bytes into it, panics (`none`) unless the number written equals
the old or the new length, and swaps the descriptors. -/
def OwnedBinary.realloc_or_copy (b : OwnedBinary) (size : Nat)
    (reallocOk allocOk : Bool) (u1 u2 : Nat → Nat) : Option OwnedBinary :=
  let r := b.realloc size reallocOk u1
  if r.1 then some r.2
  else
    match OwnedBinary.new size allocOk u2 with
    | none => none
    | some newB =>
      match slice_write newB.data b.data with
      | .error _ => none
      | .ok (written, num_written) =>
        if num_written = b.data.length ∨ num_written = written.length then
          some ⟨written⟩
        else none

/-- Modelled from the spec: `enif_make_sub_binary` (foreign runtime): on a
binary term it materializes the byte range `[pos, pos+len)` as a binary term
(whether it shares or copies internally is the runtime's choice and is
unobservable at term level). Outside its contract (a non-binary term, or a
range the caller has not bounds-checked) the call is undefined; the wrapper
only reaches it with its own checked binary term. -/
def enif_make_sub_binary (t : Term) (pos len : Nat) : Term :=
  match t with
  | .binary bs => .binary ((bs.drop pos).take len)
  | _ => t

/-- `Binary::make_subbinary(offset, length)`: checks
`length.checked_add(offset)` (overflow → `BadArg` via `ok_or`/`?`) and the
bound against `self.inner.size`, then asks the runtime for the sub-binary term
and re-inspects it with `from_term`. The trailing `.ok().unwrap()` panic is
modelled as `none` (proved unreachable for well-formed binaries). -/
def Binary.make_subbinary (b : Binary) (offset length : Nat) :
    Option (Except Error Binary) :=
  match usizeCheckedAdd length offset with
  | none => some (.error .badArg)
  | some min_len =>
    if min_len > b.data.length then some (.error .badArg)
    else
      match Binary.from_term (enif_make_sub_binary b.term offset length) with
      | .ok sub => some (.ok sub)
      | .error _ => none

/-- Well-formedness of a `Binary` view: its term handle is a binary term over
exactly the descriptor's bytes. Every `Binary` the code constructs
(`from_owned`, `from_term`, `make_subbinary`) satisfies this. -/
def Binary.WF (b : Binary) : Prop :=
  b.term = Term.binary b.data

/-- The lifecycle stage of one foreign binary allocation, as driven by the
wrapper code in `binary.rs`. -/
inductive OwnStatus where
  | unallocated
  | owned              -- held by a live `OwnedBinary`
  | transferred        -- handed to the runtime by `Binary::from_owned`
  | releasedByDrop     -- freed by `Drop for OwnedBinary` (`enif_release_binary`)
  | collectedByRuntime -- freed by the foreign collector after transfer
  deriving DecidableEq

/-- The foreign-allocator calls that free or transfer an allocation, tagged by
the allocation they act on. -/
inductive AllocEvent where
  | releaseBinary (id : Nat)  -- `enif_release_binary`, from `Drop for OwnedBinary`
  | makeBinary (id : Nat)     -- `enif_make_binary`, from `Binary::from_owned`
  | collect (id : Nat)        -- the foreign collector frees a transferred allocation
  deriving DecidableEq

/-- Global view of every allocation's lifecycle stage plus a fresh-id supply. -/
structure OwnershipState where
  status : Nat → OwnStatus
  nextId : Nat

/-- Pointwise update of the status map. -/
def setStatus (f : Nat → OwnStatus) (id : Nat) (st : OwnStatus) : Nat → OwnStatus :=
  fun j => if j = id then st else f j

/-- One API action a client of `binary.rs` can perform, with the allocator
events it emits. `drop` and `fromOwned` both require a live `OwnedBinary`
(`status id = owned`) and consume it: `drop` is the destructor's
`enif_release_binary`; `fromOwned` is `Binary::from_owned`, which wraps the
value in `ManuallyDrop` (disabling the destructor) and only then calls
`enif_make_binary` — by consuming the value it leaves no state in which both
the destructor and the collector could claim the allocation. `collect` is the
foreign collector freeing a transferred allocation. -/
inductive Step : OwnershipState → List AllocEvent → OwnershipState → Prop
  | newBin (s : OwnershipState) :
      Step s [] ⟨setStatus s.status s.nextId .owned, s.nextId + 1⟩
  | drop (s : OwnershipState) (id : Nat) (h : s.status id = .owned) :
      Step s [.releaseBinary id] ⟨setStatus s.status id .releasedByDrop, s.nextId⟩
  | fromOwned (s : OwnershipState) (id : Nat) (h : s.status id = .owned) :
      Step s [.makeBinary id] ⟨setStatus s.status id .transferred, s.nextId⟩
  | collect (s : OwnershipState) (id : Nat) (h : s.status id = .transferred) :
      Step s [.collect id] ⟨setStatus s.status id .collectedByRuntime, s.nextId⟩

/-- The empty initial state: nothing allocated yet. -/
def initOwnershipState : OwnershipState := ⟨fun _ => .unallocated, 0⟩

/-- Reachability: `Exec s evs` holds when some sequence of client actions leads
from the initial state to `s`, emitting the allocator events `evs` in order. -/
inductive Exec : OwnershipState → List AllocEvent → Prop
  | init : Exec initOwnershipState []
  | step {s : OwnershipState} {evs e : List AllocEvent} {s' : OwnershipState} :
      Exec s evs → Step s e s' → Exec s' (evs ++ e)

/-- How many times allocation `id` was freed by the native destructor. -/
def relCount (evs : List AllocEvent) (id : Nat) : Nat :=
  evs.count (.releaseBinary id)

/-- How many times allocation `id` was transferred to the runtime. -/
def mkCount (evs : List AllocEvent) (id : Nat) : Nat :=
  evs.count (.makeBinary id)

/-- How many times allocation `id` was freed by the foreign collector. -/
def colCount (evs : List AllocEvent) (id : Nat) : Nat :=
  evs.count (.collect id)

/-- The event history an allocation in a given stage must have. -/
def StatusCounts (s : OwnershipState) (evs : List AllocEvent) (id : Nat) : Prop :=
  match s.status id with
  | .unallocated => relCount evs id = 0 ∧ mkCount evs id = 0 ∧ colCount evs id = 0
  | .owned => relCount evs id = 0 ∧ mkCount evs id = 0 ∧ colCount evs id = 0
  | .transferred => relCount evs id = 0 ∧ mkCount evs id = 1 ∧ colCount evs id = 0
  | .releasedByDrop => relCount evs id = 1 ∧ mkCount evs id = 0 ∧ colCount evs id = 0
  | .collectedByRuntime => relCount evs id = 0 ∧ mkCount evs id = 1 ∧ colCount evs id = 1

/-- A concrete completed lifecycle: allocate id 0, transfer it with
`Binary::from_owned`, then let the foreign collector free it. -/
def exLifecycleState : OwnershipState :=
  ⟨setStatus (setStatus (setStatus (fun _ => OwnStatus.unallocated) 0 .owned)
      0 .transferred) 0 .collectedByRuntime, 1⟩

/-- The allocator events that lifecycle emits. -/
def exLifecycleEvents : List AllocEvent := [.makeBinary 0, .collect 0]

/-- A concrete Rust-side field value type for the spec's example record
`\x7ba: i64, b: String\x7d`. -/
inductive RustVal where
  | int : Int → RustVal
  | str : String → RustVal
  deriving DecidableEq

/-- The integer decoder of the example record's field `a`: succeeds exactly on
integer terms. -/
def decInt : Term → Except Error RustVal
  | .int n => .ok (.int n)
  | _ => .error .badArg

/-- The string decoder of the example record's field `b`: succeeds exactly on
string terms. -/
def decStr : Term → Except Error RustVal
  | .str s => .ok (.str s)
  | _ => .error .badArg

/-- The example record type's field list, in declaration order. -/
def exFields : List (FieldSpec RustVal) := [⟨"a", decInt⟩, ⟨"b", decStr⟩]

/-- A map term binding `a` to an integer but missing the key `b`. -/
def exMapMissingB : Term := .map [(.atom "a", .int 5)]

/-- A map term where `a` is bound to a string (so `a` fails to decode). -/
def exMapBadA : Term := .map [(.atom "a", .str "x"), (.atom "b", .str "y")]

/-- A complete, decodable map term for the example record. -/
def exMapGood : Term := .map [(.atom "a", .int 5), (.atom "b", .str "y")]

/-- Example encoder input: the encoded fields of a concrete record value. -/
def exEncFields : List EncField := [⟨"a", .int 5⟩, ⟨"b", .str "y"⟩]

lemma setStatus_self (f : Nat → OwnStatus) (id : Nat) (st : OwnStatus) :
    setStatus f id st id = st := by
  simp [setStatus]

lemma setStatus_ne (f : Nat → OwnStatus) (id j : Nat) (st : OwnStatus)
    (h : j ≠ id) : setStatus f id st j = f j := by
  simp [setStatus, h]

lemma relCount_append (evs : List AllocEvent) (e : AllocEvent) (id : Nat) :
    relCount (evs ++ [e]) id
      = relCount evs id + (if e = .releaseBinary id then 1 else 0) := by
  simp [relCount, List.count_append, List.count_singleton']

lemma mkCount_append (evs : List AllocEvent) (e : AllocEvent) (id : Nat) :
    mkCount (evs ++ [e]) id
      = mkCount evs id + (if e = .makeBinary id then 1 else 0) := by
  simp [mkCount, List.count_append, List.count_singleton']

lemma colCount_append (evs : List AllocEvent) (e : AllocEvent) (id : Nat) :
    colCount (evs ++ [e]) id
      = colCount evs id + (if e = .collect id then 1 else 0) := by
  simp [colCount, List.count_append, List.count_singleton']

/-- Reachability invariant: ids at or above the fresh-id supply are
unallocated, and every id's event history matches its lifecycle stage. -/
lemma exec_inv {s : OwnershipState} {evs : List AllocEvent} (h : Exec s evs) :
    (∀ id, s.nextId ≤ id → s.status id = .unallocated)
      ∧ (∀ id, StatusCounts s evs id) := by
  induction h with
  | init =>
    refine ⟨fun id _ => rfl, fun id => ?_⟩
    simp [StatusCounts, initOwnershipState, relCount, mkCount, colCount]
  | @step s evs e s' _ hstep ih =>
    obtain ⟨ihF, ihC⟩ := ih
    cases hstep with
    | newBin =>
      refine ⟨fun id hle => ?_, fun id => ?_⟩
      · have hne : id ≠ s.nextId := by simp at hle; omega
        simpa [setStatus_ne _ _ _ _ hne] using ihF id (by simp at hle ⊢; omega)
      · have hC := ihC id
        by_cases hid : id = s.nextId
        · subst hid
          have hunalloc : s.status s.nextId = .unallocated := ihF s.nextId le_rfl
          unfold StatusCounts at hC ⊢
          rw [hunalloc] at hC
          simpa [setStatus_self] using hC
        · unfold StatusCounts at hC ⊢
          simpa [setStatus_ne _ _ _ _ hid] using hC
    | drop id0 h0 =>
      refine ⟨fun id hle => ?_, fun id => ?_⟩
      · have hu := ihF id (by simpa using hle)
        have hne : id ≠ id0 := fun hEq => by rw [hEq, h0] at hu; cases hu
        simpa [setStatus_ne _ _ _ _ hne] using hu
      · have hC := ihC id
        by_cases hid : id = id0
        · subst hid
          unfold StatusCounts at hC ⊢
          rw [h0] at hC
          simp [setStatus_self, relCount_append, mkCount_append, colCount_append, hC]
        · unfold StatusCounts at hC ⊢
          have hne : AllocEvent.releaseBinary id0 ≠ AllocEvent.releaseBinary id := by
            simp [Ne.symm hid]
          simp [setStatus_ne _ _ _ _ hid, relCount_append, mkCount_append,
            colCount_append, hne]
          exact hC
    | fromOwned id0 h0 =>
      refine ⟨fun id hle => ?_, fun id => ?_⟩
      · have hu := ihF id (by simpa using hle)
        have hne : id ≠ id0 := fun hEq => by rw [hEq, h0] at hu; cases hu
        simpa [setStatus_ne _ _ _ _ hne] using hu
      · have hC := ihC id
        by_cases hid : id = id0
        · subst hid
          unfold StatusCounts at hC ⊢
          rw [h0] at hC
          simp [setStatus_self, relCount_append, mkCount_append, colCount_append, hC]
        · unfold StatusCounts at hC ⊢
          have hne : AllocEvent.makeBinary id0 ≠ AllocEvent.makeBinary id := by
            simp [Ne.symm hid]
          simp [setStatus_ne _ _ _ _ hid, relCount_append, mkCount_append,
            colCount_append, hne]
          exact hC
    | collect id0 h0 =>
      refine ⟨fun id hle => ?_, fun id => ?_⟩
      · have hu := ihF id (by simpa using hle)
        have hne : id ≠ id0 := fun hEq => by rw [hEq, h0] at hu; cases hu
        simpa [setStatus_ne _ _ _ _ hne] using hu
      · have hC := ihC id
        by_cases hid : id = id0
        · subst hid
          unfold StatusCounts at hC ⊢
          rw [h0] at hC
          simp [setStatus_self, relCount_append, mkCount_append, colCount_append, hC]
        · unfold StatusCounts at hC ⊢
          have hne : AllocEvent.collect id0 ≠ AllocEvent.collect id := by
            simp [Ne.symm hid]
          simp [setStatus_ne _ _ _ _ hid, relCount_append, mkCount_append,
            colCount_append, hne]
          exact hC

lemma exLifecycleExec : Exec exLifecycleState exLifecycleEvents :=
  Exec.step
    (Exec.step (Exec.step Exec.init (Step.newBin _))
      (Step.fromOwned _ 0 (by decide)))
    (Step.collect _ 0 (by decide))

lemma uninitBytes_length (u : Nat → Nat) (size : Nat) :
    (uninitBytes u size).length = size := by
  simp [uninitBytes]

/-- C7: `OwnedBinary::realloc` returns a boolean success indicator, and
whenever it returns `false` the binary's descriptor, length and byte contents
are exactly as they were before the call. -/
theorem realloc_failure_leaves_binary_intact (b : OwnedBinary) (size : Nat)
    (ok : Bool) (u : Nat → Nat) (h : (b.realloc size ok u).1 = false) :
    (b.realloc size ok u).2 = b := by
  cases ok with
  | true => simp [OwnedBinary.realloc, rawRealloc] at h
  | false => rfl

/-- Witness for C7 at a concrete failing reallocation. -/
theorem realloc_failure_leaves_binary_intact_witness :
    ((OwnedBinary.mk [1, 2, 3]).realloc 7 false (fun _ => 0)).1 = false
      ∧ ((OwnedBinary.mk [1, 2, 3]).realloc 7 false (fun _ => 0)).2
          = OwnedBinary.mk [1, 2, 3] :=
  ⟨rfl, realloc_failure_leaves_binary_intact (OwnedBinary.mk [1, 2, 3]) 7 false
    (fun _ => 0) rfl⟩

/-- C9: whenever the fallback allocation succeeds, `realloc_or_copy` never
reaches either `panic!("Could not copy binary")` branch (modelled as `none`):
the slice write always reports `min(old, new)` bytes written, which is always
the old or the new length. -/
theorem realloc_or_copy_never_panics (b : OwnedBinary) (size : Nat)
    (reallocOk : Bool) (u1 u2 : Nat → Nat) :
    (b.realloc_or_copy size reallocOk true u1 u2).isSome = true := by
  unfold OwnedBinary.realloc_or_copy
  cases reallocOk with
  | true => rfl
  | false =>
    simp only [OwnedBinary.realloc, rawRealloc, if_neg, Bool.false_eq_true,
      not_false_eq_true, if_false, OwnedBinary.new, allocBinary, if_pos]
    simp only [slice_write, uninitBytes_length]
    have hn : min b.data.length size = b.data.length ∨
        min b.data.length size
          = (b.data.take (min b.data.length size)
              ++ (uninitBytes u2 size).drop (min b.data.length size)).length := by
      rcases Nat.le_total b.data.length size with hle | hle
      · left; omega
      · right
        simp [uninitBytes_length, List.length_take, List.length_drop]
        omega
    simp [hn]
    rw [uninitBytes_length]
    omega

lemma length_take_append_tail (l : List Nat) (size : Nat) (tail : List Nat)
    (htail : tail.length = size - l.length) :
    (l.take size ++ tail).length = size := by
  simp [List.length_take, htail]
  omega

lemma take_min_of_take_append (l tail : List Nat) (size : Nat) :
    (l.take size ++ tail).take (min l.length size) = l.take size := by
  have hx : min l.length size = (l.take size).length := by
    simp [List.length_take]
    omega
  rw [hx, List.take_left]

lemma take_min_of_take_min_append (l tail : List Nat) (size : Nat) :
    (l.take (min l.length size) ++ tail).take (min l.length size) = l.take size := by
  have hx : (l.take (min l.length size)).length = min l.length size := by
    simp [List.length_take]
  calc (l.take (min l.length size) ++ tail).take (min l.length size)
      = (l.take (min l.length size) ++ tail).take
          (l.take (min l.length size)).length := by rw [hx]
    _ = l.take (min l.length size) := List.take_left _ _
    _ = l.take size := by
        rcases Nat.le_total size l.length with hle | hle
        · rw [Nat.min_eq_right hle]
        · rw [Nat.min_eq_left hle, List.take_length,
            List.take_of_length_le hle]

lemma realloc_or_copy_realloc_path (b : OwnedBinary) (size : Nat)
    (allocOk : Bool) (u1 u2 : Nat → Nat) :
    b.realloc_or_copy size true allocOk u1 u2
      = some ⟨b.data.take size ++ uninitBytes u1 (size - b.data.length)⟩ := by
  simp [OwnedBinary.realloc_or_copy, OwnedBinary.realloc, rawRealloc]

lemma realloc_or_copy_copy_path (b : OwnedBinary) (size : Nat) (u1 u2 : Nat → Nat) :
    b.realloc_or_copy size false true u1 u2
      = some ⟨b.data.take (min b.data.length size)
          ++ (uninitBytes u2 size).drop (min b.data.length size)⟩ := by
  simp only [OwnedBinary.realloc_or_copy, OwnedBinary.realloc, rawRealloc,
    Bool.false_eq_true, if_false, OwnedBinary.new, allocBinary, if_true,
    slice_write, uninitBytes_length]
  have hguard : min b.data.length size = b.data.length ∨
      min b.data.length size
        = (b.data.take (min b.data.length size)
            ++ (uninitBytes u2 size).drop (min b.data.length size)).length := by
    rcases Nat.le_total b.data.length size with hle | hle
    · left; omega
    · right
      simp [uninitBytes_length, List.length_take, List.length_drop]
      omega
  rw [if_pos hguard]

/-- C6: after `realloc_or_copy(new_size)` completes, the buffer has length
`new_size` and its bytes on `[0, min(old, new))` are the old bytes, whether
the in-place reallocation succeeded or the copy-and-swap fallback ran. -/
theorem realloc_or_copy_preserves_prefix (b : OwnedBinary) (size : Nat)
    (reallocOk allocOk : Bool) (u1 u2 : Nat → Nat) (b' : OwnedBinary)
    (h : b.realloc_or_copy size reallocOk allocOk u1 u2 = some b') :
    b'.data.length = size
      ∧ b'.data.take (min b.data.length size) = b.data.take size := by
  cases reallocOk with
  | true =>
    rw [realloc_or_copy_realloc_path] at h
    simp only [Option.some.injEq] at h
    subst h
    exact ⟨length_take_append_tail b.data size _ (uninitBytes_length u1 _),
      take_min_of_take_append b.data _ size⟩
  | false =>
    cases allocOk with
    | false =>
      simp [OwnedBinary.realloc_or_copy, OwnedBinary.realloc, rawRealloc,
        OwnedBinary.new, allocBinary] at h
    | true =>
      rw [realloc_or_copy_copy_path] at h
      simp only [Option.some.injEq] at h
      subst h
      refine ⟨?_, take_min_of_take_min_append b.data _ size⟩
      simp [uninitBytes_length, List.length_take, List.length_drop]

/-- Witness for C6 on both paths at concrete inputs. -/
theorem realloc_or_copy_preserves_prefix_witness :
    ((OwnedBinary.mk [1, 2, 3]).realloc_or_copy 2 false true (fun _ => 9)
        (fun _ => 9) = some (OwnedBinary.mk [1, 2]))
      ∧ ((OwnedBinary.mk [1, 2]).data.length = 2
          ∧ (OwnedBinary.mk [1, 2]).data.take (min 3 2) = [1, 2, 3].take 2) :=
  ⟨by decide, realloc_or_copy_preserves_prefix (OwnedBinary.mk [1, 2, 3]) 2
    false true (fun _ => 9) (fun _ => 9) (OwnedBinary.mk [1, 2]) (by decide)⟩

/-- C3: allocating an `OwnedBinary` of `len(B)` bytes, writing `B` into it,
transferring it with `Binary::from_owned`, and copying it back with
`to_owned` yields `Some` buffer with byte contents `B`, whenever the final
allocation succeeds (allocation outcomes are the `true` flags). -/
theorem binary_round_trip (B : List Nat) (u1 u2 : Nat → Nat) (b0 : OwnedBinary)
    (h0 : OwnedBinary.new B.length true u1 = some b0) :
    (Binary.from_owned (b0.write_all B)).to_owned true u2 = some ⟨B⟩ := by
  have hb0 : b0 = ⟨uninitBytes u1 B.length⟩ := by
    simpa [OwnedBinary.new, allocBinary] using h0.symm
  subst hb0
  have hlen : (uninitBytes u1 B.length).length = B.length := uninitBytes_length _ _
  have hfill : (OwnedBinary.mk (uninitBytes u1 B.length)).write_all B
      = OwnedBinary.mk B := by
    simp [OwnedBinary.write_all, copy_from_slice, hlen]
  rw [hfill]
  simp [Binary.from_owned, Binary.to_owned, OwnedBinary.from_unowned,
    OwnedBinary.new, allocBinary, OwnedBinary.write_all, copy_from_slice,
    uninitBytes_length]

/-- Witness for C3 with `B = [7, 8, 9]`. -/
theorem binary_round_trip_witness :
    OwnedBinary.new [7, 8, 9].length true (fun _ => 0) = some (OwnedBinary.mk [0, 0, 0])
      ∧ (Binary.from_owned ((OwnedBinary.mk [0, 0, 0]).write_all [7, 8, 9])).to_owned
          true (fun _ => 0) = some ⟨[7, 8, 9]⟩ :=
  ⟨by decide, binary_round_trip [7, 8, 9] (fun _ => 0) (fun _ => 0)
    (OwnedBinary.mk [0, 0, 0]) (by decide)⟩

lemma make_subbinary_ok (b : Binary) (hwf : b.WF) (offset length : Nat)
    (hov : length + offset ≤ USIZE_MAX) (hle : length + offset ≤ b.data.length) :
    b.make_subbinary offset length
      = some (.ok ⟨(b.data.drop offset).take length,
          Term.binary ((b.data.drop offset).take length)⟩) := by
  rw [Binary.WF] at hwf
  simp only [Binary.make_subbinary, usizeCheckedAdd, if_pos hov, gt_iff_lt,
    Nat.not_lt.mpr hle, if_false, hwf, enif_make_sub_binary, Binary.from_term]

lemma make_subbinary_overflow (b : Binary) (offset length : Nat)
    (hov : USIZE_MAX < length + offset) :
    b.make_subbinary offset length = some (.error .badArg) := by
  unfold Binary.make_subbinary usizeCheckedAdd
  rw [if_neg (by omega)]

lemma make_subbinary_out_of_bounds (b : Binary) (offset length : Nat)
    (hov : length + offset ≤ USIZE_MAX) (hgt : b.data.length < length + offset) :
    b.make_subbinary offset length = some (.error .badArg) := by
  unfold Binary.make_subbinary usizeCheckedAdd
  rw [if_pos hov]
  simp [hgt]

/-- C4: `make_subbinary(offset, length)` returns the bounds-violation error
`BadArg` exactly when `offset + length` overflows `usize` or exceeds the
binary's length `N`; in particular it errors at `offset = N, length = 1` and
at `length = usize::MAX`, and it succeeds whenever `offset + length ≤ N`. -/
theorem make_subbinary_bounds (b : Binary) (hwf : b.WF)
    (hN : b.data.length < USIZE_MAX) :
    (∀ offset length : Nat, offset ≤ USIZE_MAX → length ≤ USIZE_MAX →
      (b.make_subbinary offset length = some (.error .badArg) ↔
        USIZE_MAX < offset + length ∨ b.data.length < offset + length))
    ∧ b.make_subbinary b.data.length 1 = some (.error .badArg)
    ∧ (∀ offset : Nat, b.make_subbinary offset USIZE_MAX
        = some (.error .badArg))
    ∧ (∀ offset length : Nat, offset + length ≤ b.data.length →
        ∃ sub, b.make_subbinary offset length = some (.ok sub)) := by
  have herr : ∀ offset length : Nat,
      USIZE_MAX < offset + length ∨ b.data.length < offset + length →
      b.make_subbinary offset length = some (.error .badArg) := by
    intro offset length hcase
    by_cases hov : length + offset ≤ USIZE_MAX
    · exact make_subbinary_out_of_bounds b offset length hov (by omega)
    · exact make_subbinary_overflow b offset length (by omega)
  refine ⟨fun offset length _ _ => ⟨fun h => ?_, fun h => herr offset length h⟩,
    herr _ _ (by omega), fun offset => herr _ _ (by omega),
    fun offset length hle => ?_⟩
  · by_contra hcon
    push_neg at hcon
    obtain ⟨h1, h2⟩ : offset + length ≤ USIZE_MAX ∧ offset + length ≤ b.data.length := by
      omega
    rw [make_subbinary_ok b hwf offset length (by omega) (by omega)] at h
    simp at h
  · exact ⟨_, make_subbinary_ok b hwf offset length (by omega) (by omega)⟩

/-- Witness for C4 on a three-byte binary. -/
theorem make_subbinary_bounds_witness :
    ((Binary.mk [1, 2, 3] (Term.binary [1, 2, 3])).make_subbinary 3 1
        = some (.error .badArg))
      ∧ ((Binary.mk [1, 2, 3] (Term.binary [1, 2, 3])).make_subbinary 2 USIZE_MAX
        = some (.error .badArg)) :=
  ⟨(make_subbinary_bounds (Binary.mk [1, 2, 3] (Term.binary [1, 2, 3])) rfl
      (by norm_num [USIZE_MAX])).2.1,
    (make_subbinary_bounds (Binary.mk [1, 2, 3] (Term.binary [1, 2, 3])) rfl
      (by norm_num [USIZE_MAX])).2.2.1 2⟩

/-- C5: for a well-formed shared binary and any in-bounds `offset`/`length`,
`make_subbinary` succeeds and the resulting view's bytes are
`B[offset : offset + length]` (the runtime shares the storage; at term level
the contents are exactly that slice). -/
theorem make_subbinary_contents (b : Binary) (hwf : b.WF)
    (hN : b.data.length ≤ USIZE_MAX) (offset length : Nat)
    (hle : offset + length ≤ b.data.length) :
    b.make_subbinary offset length
      = some (.ok ⟨(b.data.drop offset).take length,
          Term.binary ((b.data.drop offset).take length)⟩) :=
  make_subbinary_ok b hwf offset length (by omega) (by omega)

/-- Witness for C5: slicing `[5, 6, 7, 8]` at offset 1, length 2. -/
theorem make_subbinary_contents_witness :
    (Binary.mk [5, 6, 7, 8] (Term.binary [5, 6, 7, 8])).make_subbinary 1 2
      = some (.ok ⟨[6, 7], Term.binary [6, 7]⟩) := by
  have h := make_subbinary_contents (Binary.mk [5, 6, 7, 8]
    (Term.binary [5, 6, 7, 8])) rfl (by norm_num [USIZE_MAX]) 1 2 (by norm_num)
  simpa using h

lemma decodeField_of_map_get_error {V : Type} (f : FieldSpec V) (m : Term)
    (e : Error) (h : m.map_get (.atom f.name) = .error e) :
    decodeField f m = .error e := by
  simp [decodeField, h]

lemma decodeField_of_dec_error {V : Type} (f : FieldSpec V) (m : Term) (v : Term)
    (e : Error) (hget : m.map_get (.atom f.name) = .ok v)
    (hdec : f.dec v = .error e) :
    decodeField f m = .error (.raiseTerm (fieldErrorMessage f.name)) := by
  simp [decodeField, hget, hdec]

lemma decodeField_of_dec_ok {V : Type} (f : FieldSpec V) (m : Term) (v : Term)
    (w : V) (hget : m.map_get (.atom f.name) = .ok v) (hdec : f.dec v = .ok w) :
    decodeField f m = .ok w := by
  simp [decodeField, hget, hdec]

lemma decodeField_ok_inv {V : Type} (f : FieldSpec V) (m : Term) (w : V)
    (h : decodeField f m = .ok w) :
    ∃ v, m.map_get (.atom f.name) = .ok v ∧ f.dec v = .ok w := by
  cases hget : m.map_get (.atom f.name) with
  | error e => rw [decodeField_of_map_get_error f m e hget] at h; cases h
  | ok v =>
    cases hdec : f.dec v with
    | error e => rw [decodeField_of_dec_error f m v e hget hdec] at h; cases h
    | ok w' =>
      rw [decodeField_of_dec_ok f m v w' hget hdec] at h
      injection h with h
      subst h
      exact ⟨v, rfl, hdec⟩

lemma gen_decoder_cons_ok {V : Type} (g : FieldSpec V) (l : List (FieldSpec V))
    (m : Term) (w : V) (h : decodeField g m = .ok w) :
    gen_decoder (g :: l) m
      = match gen_decoder l m with
        | .error e => .error e
        | .ok vs => .ok (w :: vs) := by
  simp [gen_decoder, h]

lemma gen_decoder_of_all_ok {V : Type} (fields : List (FieldSpec V)) (m : Term)
    (h : ∀ f ∈ fields, ∃ v w, m.map_get (.atom f.name) = .ok v ∧ f.dec v = .ok w) :
    ∃ vs, gen_decoder fields m = .ok vs ∧ vs.length = fields.length := by
  induction fields with
  | nil => exact ⟨[], rfl, rfl⟩
  | cons f rest ih =>
    obtain ⟨v, w, hget, hdec⟩ := h f (by simp)
    obtain ⟨vs, hvs, hlen⟩ := ih (fun g hg => h g (by simp [hg]))
    refine ⟨w :: vs, ?_, by simp [hlen]⟩
    simp [gen_decoder, decodeField_of_dec_ok f m v w hget hdec, hvs]

lemma gen_decoder_ok_inv {V : Type} (fields : List (FieldSpec V)) (m : Term)
    (vs : List V) (h : gen_decoder fields m = .ok vs) :
    ∀ f ∈ fields, ∃ v w, m.map_get (.atom f.name) = .ok v ∧ f.dec v = .ok w := by
  induction fields generalizing vs with
  | nil => simp
  | cons g rest ih =>
    intro f hf
    unfold gen_decoder at h
    cases hd : decodeField g m with
    | error e => rw [hd] at h; cases h
    | ok v =>
      rw [hd] at h
      cases hrest : gen_decoder rest m with
      | error e => rw [hrest] at h; cases h
      | ok vs' =>
        rcases List.mem_cons.mp hf with hfg | hfr
        · obtain ⟨u, hget, hdec⟩ := decodeField_ok_inv g m v hd
          rw [hfg]
          exact ⟨u, v, hget, hdec⟩
        · exact ih vs' hrest f hfr

lemma gen_decoder_first_error {V : Type} (pre post : List (FieldSpec V))
    (f : FieldSpec V) (m : Term) (e : Error)
    (hpre : ∀ g ∈ pre, ∃ v w, m.map_get (.atom g.name) = .ok v ∧ g.dec v = .ok w)
    (hf : decodeField f m = .error e) :
    gen_decoder (pre ++ f :: post) m = .error e := by
  induction pre with
  | nil => simp [gen_decoder, hf]
  | cons g rest ih =>
    obtain ⟨v, w, hget, hdec⟩ := hpre g (by simp)
    rw [List.cons_append, gen_decoder_cons_ok g (rest ++ f :: post) m w
      (decodeField_of_dec_ok g m v w hget hdec),
      ih (fun g' hg' => hpre g' (by simp [hg']))]

/-- Counterexample to C1 as stated: decoding a map term missing the key `b`
fails with the bare `BadArg` that `map_get` returns (propagated by `?`), which
carries no field name — not with a descriptive error naming `b`. -/
theorem decoder_missing_key_counterexample :
    gen_decoder exFields exMapMissingB = .error .badArg
      ∧ Error.badArg ≠ .raiseTerm (fieldErrorMessage "b") :=
  ⟨rfl, by decide⟩

/-- C1 (amended): the generated decoder processes fields in declaration order
and fails on the first problem; a missing key makes it fail with the map
lookup's own error (`BadArg`, naming no field), a present key whose value
fails to decode makes it fail with the descriptive `RaiseTerm` naming that
field, and it succeeds with a complete record (one value per field) exactly
when every field's key is present and its value decodes. -/
theorem gen_decoder_first_failure {V : Type} (fields : List (FieldSpec V))
    (m : Term) :
    ((∀ f ∈ fields, ∃ v w, m.map_get (.atom f.name) = .ok v ∧ f.dec v = .ok w) →
        ∃ vs, gen_decoder fields m = .ok vs ∧ vs.length = fields.length)
    ∧ (∀ vs, gen_decoder fields m = .ok vs →
        ∀ f ∈ fields, ∃ v w, m.map_get (.atom f.name) = .ok v ∧ f.dec v = .ok w)
    ∧ (∀ (pre post : List (FieldSpec V)) (f : FieldSpec V) (e : Error),
        fields = pre ++ f :: post →
        (∀ g ∈ pre, ∃ v w, m.map_get (.atom g.name) = .ok v ∧ g.dec v = .ok w) →
        m.map_get (.atom f.name) = .error e →
        gen_decoder fields m = .error e)
    ∧ (∀ (pre post : List (FieldSpec V)) (f : FieldSpec V) (v : Term) (e : Error),
        fields = pre ++ f :: post →
        (∀ g ∈ pre, ∃ v w, m.map_get (.atom g.name) = .ok v ∧ g.dec v = .ok w) →
        m.map_get (.atom f.name) = .ok v → f.dec v = .error e →
        gen_decoder fields m = .error (.raiseTerm (fieldErrorMessage f.name))) := by
  refine ⟨gen_decoder_of_all_ok fields m, gen_decoder_ok_inv fields m, ?_, ?_⟩
  · intro pre post f e hsplit hpre hget
    subst hsplit
    exact gen_decoder_first_error pre post f m e hpre
      (decodeField_of_map_get_error f m e hget)
  · intro pre post f v e hsplit hpre hget hdec
    subst hsplit
    exact gen_decoder_first_error pre post f m _ hpre
      (decodeField_of_dec_error f m v e hget hdec)

/-- Witness for C1 (amended) on the example record: a complete map decodes, a
map missing `b` yields the propagated `BadArg`, and a map with a bad value for
`a` yields the `RaiseTerm` naming `a`. -/
theorem gen_decoder_first_failure_witness :
    (∃ vs, gen_decoder exFields exMapGood = .ok vs ∧ vs.length = exFields.length)
      ∧ gen_decoder exFields exMapMissingB = .error .badArg
      ∧ gen_decoder exFields exMapBadA
          = .error (.raiseTerm (fieldErrorMessage "a")) := by
  refine ⟨(gen_decoder_first_failure exFields exMapGood).1 ?_,
    (gen_decoder_first_failure exFields exMapMissingB).2.2.1
      [⟨"a", decInt⟩] [] ⟨"b", decStr⟩ .badArg rfl ?_ rfl,
    (gen_decoder_first_failure exFields exMapBadA).2.2.2
      [] [⟨"b", decStr⟩] ⟨"a", decInt⟩ (.str "x") .badArg rfl ?_ rfl rfl⟩
  · intro f hf
    simp only [exFields, List.mem_cons, List.mem_singleton] at hf
    rcases hf with h | h | h
    · subst h; exact ⟨.int 5, .int 5, rfl, rfl⟩
    · subst h; exact ⟨.str "y", .str "y", rfl, rfl⟩
    · cases h
  · intro f hf
    simp only [List.mem_singleton] at hf
    subst hf
    exact ⟨.int 5, .int 5, rfl, rfl⟩
  · intro f hf
    simp at hf

lemma find_append_of_none (l1 l2 : List (Term × Term)) (p : Term × Term → Bool)
    (h : ∀ x ∈ l1, p x = false) : (l1 ++ l2).find? p = l2.find? p := by
  induction l1 with
  | nil => rfl
  | cons x rest ih =>
    have hx : p x = false := h x (by simp)
    simp only [List.cons_append, List.find?, hx]
    exact ih (fun y hy => h y (by simp [hy]))

lemma find_append_of_right_none (l1 l2 : List (Term × Term))
    (p : Term × Term → Bool) (h2 : ∀ x ∈ l2, p x = false) :
    (l1 ++ l2).find? p = l1.find? p := by
  induction l1 with
  | nil =>
    simp only [List.nil_append, List.find?_nil]
    exact List.find?_eq_none.mpr (fun x hx => by simp [h2 x hx])
  | cons x rest ih =>
    cases hx : p x with
    | true => simp [List.find?, hx]
    | false => simp [List.find?, hx, ih]

lemma map_get_entries (es : List (Term × Term)) (key : Term) :
    Term.map_get (.map es) key
      = match es.find? (fun p => p.1 == key) with
        | some p => .ok p.2
        | none => .error .badArg := rfl

lemma map_get_append_extra (entries extra1 extra2 : List (Term × Term))
    (key : Term)
    (h1 : ∀ p ∈ extra1, (p.1 == key) = false)
    (h2 : ∀ p ∈ extra2, (p.1 == key) = false) :
    Term.map_get (.map (extra1 ++ entries ++ extra2)) key
      = Term.map_get (.map entries) key := by
  rw [map_get_entries, map_get_entries, List.append_assoc,
    find_append_of_none extra1 (entries ++ extra2) _ h1,
    find_append_of_right_none entries extra2 _ h2]

lemma gen_decoder_congr {V : Type} (fields : List (FieldSpec V)) (m m' : Term)
    (h : ∀ f ∈ fields, m.map_get (.atom f.name) = m'.map_get (.atom f.name)) :
    gen_decoder fields m = gen_decoder fields m' := by
  induction fields with
  | nil => rfl
  | cons f rest ih =>
    have hdf : decodeField f m = decodeField f m' := by
      unfold decodeField
      rw [h f (by simp)]
    simp only [gen_decoder, hdf, ih (fun g hg => h g (by simp [hg]))]

/-- C10: the generated decoder only looks up the record's own field keys and
never enumerates the map: if a map term decodes to a record, the same map
with arbitrary additional non-field keys (prepended or appended) decodes to
the same record. -/
theorem gen_decoder_ignores_extra_keys {V : Type} (fields : List (FieldSpec V))
    (entries extra1 extra2 : List (Term × Term)) (vs : List V)
    (hdec : gen_decoder fields (.map entries) = .ok vs)
    (h1 : ∀ p ∈ extra1, ∀ f ∈ fields, (p.1 == Term.atom f.name) = false)
    (h2 : ∀ p ∈ extra2, ∀ f ∈ fields, (p.1 == Term.atom f.name) = false) :
    gen_decoder fields (.map (extra1 ++ entries ++ extra2)) = .ok vs := by
  have hcongr := gen_decoder_congr fields (.map (extra1 ++ entries ++ extra2))
    (.map entries)
    (fun f hf => map_get_append_extra entries extra1 extra2 _
      (fun p hp => h1 p hp f hf) (fun p hp => h2 p hp f hf))
  rw [hcongr]
  exact hdec

/-- Witness for C10: the complete example map still decodes to the same record
with a foreign atom key in front and a non-atom key behind. -/
theorem gen_decoder_ignores_extra_keys_witness :
    gen_decoder exFields (.map ([(Term.atom "c", Term.binary [1])]
        ++ [(Term.atom "a", Term.int 5), (Term.atom "b", Term.str "y")]
        ++ [(Term.int 9, Term.atom "z")]))
      = .ok [.int 5, .str "y"] :=
  gen_decoder_ignores_extra_keys exFields
    [(Term.atom "a", Term.int 5), (Term.atom "b", Term.str "y")]
    [(Term.atom "c", Term.binary [1])] [(Term.int 9, Term.atom "z")]
    [.int 5, .str "y"] rfl
    (by intro p hp f hf; fin_cases hp; fin_cases hf <;> rfl)
    (by intro p hp f hf; fin_cases hp; fin_cases hf <;> rfl)

lemma putEntry_no_match (es : List (Term × Term)) (k v : Term)
    (h : ∀ p ∈ es, (p.1 == k) = false) :
    putEntry es k v = es ++ [(k, v)] := by
  induction es with
  | nil => rfl
  | cons p rest ih =>
    obtain ⟨k', v'⟩ := p
    have hp : (k' == k) = false := h (k', v') (by simp)
    simp [putEntry, hp, ih (fun q hq => h q (by simp [hq]))]

lemma encodeFields_spec (fields : List EncField) (es : List (Term × Term))
    (hnodup : (fields.map EncField.name).Nodup)
    (hdisj : ∀ f ∈ fields, ∀ p ∈ es, (p.1 == Term.atom f.name) = false) :
    encodeFields fields (.map es)
      = .ok (.map (es ++ fields.map (fun f => (Term.atom f.name, f.value)))) := by
  induction fields generalizing es with
  | nil => simp [encodeFields]
  | cons f rest ih =>
    have hput : Term.map_put (.map es) (Term.atom f.name) f.value
        = .ok (.map (es ++ [(Term.atom f.name, f.value)])) := by
      simp [Term.map_put,
        putEntry_no_match es _ _ (fun p hp => hdisj f (by simp) p hp)]
    have hnodup' : (rest.map EncField.name).Nodup :=
      (List.nodup_cons.mp (by simpa using hnodup)).2
    have hnotmem : f.name ∉ rest.map EncField.name :=
      (List.nodup_cons.mp (by simpa using hnodup)).1
    have hdisj' : ∀ g ∈ rest, ∀ p ∈ es ++ [(Term.atom f.name, f.value)],
        (p.1 == Term.atom g.name) = false := by
      intro g hg p hp
      rcases List.mem_append.mp hp with hpe | hpf
      · exact hdisj g (by simp [hg]) p hpe
      · have hpp : p = (Term.atom f.name, f.value) := by simpa using hpf
        subst hpp
        have hne : f.name ≠ g.name := by
          intro hEq
          exact hnotmem (by rw [hEq]; exact List.mem_map_of_mem _ hg)
        show (f.name == g.name) = false
        exact beq_eq_false_iff_ne.mpr hne
    simp only [encodeFields, hput]
    rw [ih _ hnodup' hdisj']
    simp

/-- C8: the generated encoder starts from an empty map term and inserts, for
each field in declaration order, that field's interned atom key mapped to the
field's encoded value; with the record's (distinct) field names the resulting
map has exactly one entry per field, in declaration order, and the result is
a function of the inputs (deterministic across calls on equal inputs). -/
theorem gen_encoder_entries (fields : List EncField)
    (hnodup : (fields.map EncField.name).Nodup) :
    gen_encoder fields
      = .ok (.map (fields.map (fun f => (Term.atom f.name, f.value)))) := by
  have h := encodeFields_spec fields [] hnodup (by simp)
  simpa [gen_encoder, map_new] using h

/-- Witness for C8 on the example record value. -/
theorem gen_encoder_entries_witness :
    gen_encoder exEncFields
      = .ok (.map [(Term.atom "a", Term.int 5), (Term.atom "b", Term.str "y")]) :=
  gen_encoder_entries exEncFields (by decide)

/-- C2: along every reachable execution, each allocation is freed at most once
and, once its lifecycle completes, exactly once; the destructor's release and
the foreign collector's free are mutually exclusive (the destructor runs iff
the value was never transferred via `Binary::from_owned`); and once a
transfer has happened the source value is no longer owned, so no owned-value
operation (every `Step` requiring `owned` status) can apply to it — the
transfer consumed it. -/
theorem owned_binary_released_exactly_once {s : OwnershipState}
    {evs : List AllocEvent} (h : Exec s evs) (id : Nat) :
    relCount evs id + colCount evs id ≤ 1
    ∧ (relCount evs id = 1 → mkCount evs id = 0)
    ∧ (mkCount evs id = 1 → relCount evs id = 0)
    ∧ ((s.status id = .releasedByDrop ∨ s.status id = .collectedByRuntime) →
        relCount evs id + colCount evs id = 1)
    ∧ (1 ≤ mkCount evs id → s.status id ≠ .owned) := by
  have hC := (exec_inv h).2 id
  unfold StatusCounts at hC
  cases hst : s.status id <;> rw [hst] at hC <;>
    obtain ⟨h1, h2, h3⟩ := hC <;> simp [h1, h2, h3]

/-- Witness for C2 on the concrete allocate–transfer–collect lifecycle. -/
theorem owned_binary_released_exactly_once_witness :
    relCount exLifecycleEvents 0 + colCount exLifecycleEvents 0 ≤ 1
    ∧ (relCount exLifecycleEvents 0 = 1 → mkCount exLifecycleEvents 0 = 0)
    ∧ (mkCount exLifecycleEvents 0 = 1 → relCount exLifecycleEvents 0 = 0)
    ∧ ((exLifecycleState.status 0 = .releasedByDrop ∨
          exLifecycleState.status 0 = .collectedByRuntime) →
        relCount exLifecycleEvents 0 + colCount exLifecycleEvents 0 = 1)
    ∧ (1 ≤ mkCount exLifecycleEvents 0 → exLifecycleState.status 0 ≠ .owned) :=
  owned_binary_released_exactly_once exLifecycleExec 0

end RustlerSpec
